import Mathlib

/-!
# Verification of the go-rag text-chunking subsystem and RAG pipeline

Shallow embedding of the chunker (`internal/loader/chunker.go`), the chunk
metadata builder (`internal/loader` document loader), and the retrieval
pipeline (`internal/service`).  Go strings are modelled as lists of
characters (`Str`); Go `int` is modelled as `Int`; Go byte indexing and
`len` coincide with character indexing on the ASCII inputs considered here.
The fixed-size chunking loop is modelled with explicit fuel returning
`Option`, so that a `for` loop that would not terminate in Go is mapped to
`none` rather than to an arbitrary value.
-/

namespace GoRag

/-- Go strings, modelled as lists of characters. -/
abbrev Str := List Char

/-- Injection of Lean string literals into the model. -/
def str (s : String) : Str := s.toList

/-- Model of Go `unicode.IsSpace`, restricted to the ASCII whitespace
characters (space, tab, newline, vertical tab, form feed, carriage return). -/
def goIsSpace (c : Char) : Bool :=
  c = ' ' || c = '\t' || c = '\n' || c = Char.ofNat 11 || c = Char.ofNat 12 || c = '\r'

/-- Model of Go `unicode.IsUpper`, restricted to ASCII. -/
def goIsUpper (c : Char) : Bool := 'A' ≤ c && c ≤ 'Z'

/-- Model of Go `unicode.IsLetter`, restricted to ASCII. -/
def goIsLetter (c : Char) : Bool := ('A' ≤ c && c ≤ 'Z') || ('a' ≤ c && c ≤ 'z')

/-- Model of Go `strings.TrimSpace`: remove leading and trailing whitespace. -/
def trimSpace (s : Str) : Str :=
  ((s.dropWhile goIsSpace).reverse.dropWhile goIsSpace).reverse

/-- Model of Go `strings.Split(text, "\n\n")`: split on each non-overlapping
occurrence of the two-character separator, scanning left to right. -/
def splitParas : Str → List Str
  | [] => [[]]
  | '\n' :: '\n' :: rest => [] :: splitParas rest
  | c :: rest =>
    match splitParas rest with
    | s :: ss => (c :: s) :: ss
    | [] => [[c]]

/-- Auxiliary loop for `fields`: `w` is the current word, accumulated in
reverse. -/
def fieldsAux : Str → Str → List Str
  | [], w => if w = [] then [] else [w.reverse]
  | c :: rest, w =>
    if goIsSpace c then
      if w = [] then fieldsAux rest [] else w.reverse :: fieldsAux rest []
    else fieldsAux rest (c :: w)

/-- Model of Go `strings.Fields`: the maximal runs of non-whitespace
characters. -/
def fields (s : Str) : List Str := fieldsAux s []

/-- The quantity accumulated by `getOverlapText`'s backward walk:
`len(word) + 1` summed over a word list. -/
def sumLen (ws : List Str) : Int := (ws.map (fun w => (w.length : Int) + 1)).sum

/-- The backward walk of `getOverlapText` (`chunker.go:213-219`), expressed on
the reversed word list: returns `some n` when the accumulated total first
reaches `overlapChars` after taking `n` words from the end, `none` when the
loop finishes without reaching it (so `startIdx` keeps its initial value
`len(words)`). -/
def revTake (ov : Int) : List Str → Int → Option Nat
  | [], _ => none
  | w :: rws, total =>
    let total' := total + w.length + 1
    if ov ≤ total' then some 1
    else
      match revTake ov rws total' with
      | some n => some (n + 1)
      | none => none

/-- Model of `getOverlapText` (`chunker.go:208-227`): join the trailing words
starting at the computed start index with single spaces. -/
def getOverlapText (words : List Str) (overlapChars : Int) : Str :=
  match revTake overlapChars words.reverse 0 with
  | some n => List.intercalate [' '] (words.drop (words.length - n))
  | none => List.intercalate [' '] (words.drop words.length)

/-- Go slice `text[i:e]` for `0 ≤ i ≤ e ≤ len text`. -/
def slice (t : Str) (i e : Nat) : Str := (t.drop i).take (e - i)

/-- The sliding-window loop of `chunkByFixedSize` (`chunker.go:117-137`),
with explicit fuel.  `i` is the Go loop index, `chunks` the accumulator. -/
def fixedLoop : Nat → Str → Int → Int → Int → List Str → Option (List Str)
  | 0, _, _, _, _, _ => none
  | fuel + 1, t, maxSize, overlap, i, chunks =>
    if i < (t.length : Int) then
      let e := min (i + maxSize) (t.length : Int)
      if e - i < maxSize.tdiv 4 ∧ chunks ≠ [] then
        -- too small a tail: extend the previous chunk and break
        some (chunks.dropLast ++ [chunks.getLastD [] ++ ' ' :: slice t i.toNat e.toNat])
      else
        let chunks' := chunks ++ [slice t i.toNat e.toNat]
        if e = (t.length : Int) then some chunks'
        else fixedLoop fuel t maxSize overlap (i + (maxSize - overlap)) chunks'
    else some chunks

/-- Model of `chunkByFixedSize` (`chunker.go:104-140`). -/
def chunkByFixedSize (text : Str) (maxSize overlap : Int) : Option (List Str) :=
  let t := trimSpace text
  if t = [] then some []
  else if (t.length : Int) ≤ maxSize then some [t]
  else fixedLoop (t.length + 1) t maxSize overlap 0 []

/-- The first half of the loop body of `combineItemsIntoChunks`
(`chunker.go:152-178`): close the current chunk if appending `item` would
overflow, seeding the next buffer with the overlap tail, otherwise append
`item` to the buffer. -/
def combineClose (maxSize overlap : Int) (st : List Str × Str) (item : Str) :
    List Str × Str :=
  let chunks := st.1
  let cur := st.2
  if 0 < cur.length ∧ maxSize < (cur.length : Int) + 1 + item.length then
    let chunks' := chunks ++ [trimSpace cur]
    if 0 < overlap ∧ overlap < (cur.length : Int) then
      let words := fields cur
      if 3 < words.length then
        (chunks', getOverlapText words overlap ++ ' ' :: item)
      else (chunks', item)
    else (chunks', item)
  else
    (chunks, (if 0 < cur.length then cur ++ [' '] else cur) ++ item)

/-- One full iteration of the loop body of `combineItemsIntoChunks`
(`chunker.go:152-196`): the close/append step followed by the oversized-buffer
re-split through `chunkByFixedSize`. -/
def combineStep (maxSize overlap : Int) (st : List Str × Str) (item : Str) :
    Option (List Str × Str) :=
  let st1 := combineClose maxSize overlap st item
  if maxSize < (st1.2.length : Int) then
    match chunkByFixedSize st1.2 maxSize overlap with
    | none => none
    | some fixedChunks =>
      some (st1.1 ++ (if 1 < fixedChunks.length then fixedChunks.dropLast else []),
            fixedChunks.getLastD [])
  else some st1

/-- The item loop of `combineItemsIntoChunks`. -/
def combineLoop (maxSize overlap : Int) : List Str → List Str × Str →
    Option (List Str × Str)
  | [], st => some st
  | item :: rest, st =>
    match combineStep maxSize overlap st item with
    | none => none
    | some st' => combineLoop maxSize overlap rest st'

/-- Model of `combineItemsIntoChunks` (`chunker.go:148-205`). -/
def combineItemsIntoChunks (items : List Str) (maxSize overlap : Int) :
    Option (List Str) :=
  match combineLoop maxSize overlap items ([], []) with
  | none => none
  | some st =>
    some (if trimSpace st.2 ≠ [] then st.1 ++ [trimSpace st.2] else st.1)

/-- Model of `chunkPreservingParagraphs` (`chunker.go:143-145`). -/
def chunkPreservingParagraphs (paragraphs : List Str) (maxSize overlap : Int) :
    Option (List Str) :=
  combineItemsIntoChunks paragraphs maxSize overlap

/-- The cleaning loops of `chunkByParagraph` / `chunkBySentence`: trim each
piece and drop the empties. -/
def cleanPieces (l : List Str) : List Str :=
  (l.map trimSpace).filter (fun s => s ≠ [])

/-- Model of `allParagraphsUnderMaxSize` (`chunker.go:284-291`). -/
def allParagraphsUnderMaxSize (paragraphs : List Str) (maxSize : Int) : Bool :=
  paragraphs.all (fun p => (p.length : Int) ≤ maxSize)

/-- Model of `chunkByParagraph` (`chunker.go:54-79`). -/
def chunkByParagraph (text : Str) (maxSize overlap : Int) : Option (List Str) :=
  let cleanParagraphs := cleanPieces (splitParas text)
  if cleanParagraphs = [] then some []
  else if allParagraphsUnderMaxSize cleanParagraphs maxSize then
    some cleanParagraphs
  else chunkPreservingParagraphs cleanParagraphs maxSize overlap

/-- The character loop of `splitIntoSentences` (`chunker.go:237-273`).
`cur` is the current sentence builder, `inAbbr` the abbreviation flag, the
third argument the remaining text.  The two `continue` branches emit the
sentence; the end-of-text branch (`chunker.go:260-264`) emits the sentence
and `break`s without resetting the builder, after which the post-loop flush
(`chunker.go:276-278`) emits the still-non-empty builder a second time. -/
def sentLoop : Str → Bool → Str → List Str
  | cur, _, [] => if cur ≠ [] then [cur] else []
  | cur, inAbbr, r :: rest =>
    let cur' := cur ++ [r]
    if r = '.' ∨ r = '!' ∨ r = '?' then
      match rest with
      | next :: rest2 =>
        if goIsSpace next && (match rest2 with | c2 :: _ => goIsUpper c2 | [] => false) then
          cur' :: sentLoop [] false rest
        else if r = '.' ∧ goIsSpace next ∧ ¬inAbbr then
          cur' :: sentLoop [] inAbbr rest
        else
          sentLoop cur'
            (if goIsLetter r && (match rest with | c1 :: _ => c1 = '.' | [] => false) then true
             else if goIsSpace r then false else inAbbr) rest
      | [] => [cur', cur']
    else
      sentLoop cur'
        (if goIsLetter r && (match rest with | c1 :: _ => c1 = '.' | [] => false) then true
         else if goIsSpace r then false else inAbbr) rest

/-- Model of `splitIntoSentences` (`chunker.go:230-281`). -/
def splitIntoSentences (text : Str) : List Str := sentLoop [] false text

/-- Model of `chunkBySentence` (`chunker.go:82-101`). -/
def chunkBySentence (text : Str) (maxSize overlap : Int) : Option (List Str) :=
  let cleanSentences := cleanPieces (splitIntoSentences text)
  if cleanSentences = [] then some []
  else combineItemsIntoChunks cleanSentences maxSize overlap

/-- Model of `ChunkingOptions` (`chunker.go:21-28`); the strategy is a Go
string with the three recognized values `"paragraph"`, `"sentence"` and
`"fixed_size"`. -/
structure ChunkingOptions where
  strategy : String
  maxChunkSize : Int
  chunkOverlap : Int

/-- Model of `ChunkText` (`chunker.go:40-51`); unrecognized strategies fall
back to the paragraph strategy. -/
def ChunkText (text : Str) (options : ChunkingOptions) : Option (List Str) :=
  if options.strategy = "paragraph" then
    chunkByParagraph text options.maxChunkSize options.chunkOverlap
  else if options.strategy = "sentence" then
    chunkBySentence text options.maxChunkSize options.chunkOverlap
  else if options.strategy = "fixed_size" then
    chunkByFixedSize text options.maxChunkSize options.chunkOverlap
  else
    chunkByParagraph text options.maxChunkSize options.chunkOverlap

/-- Specification predicate: the string is empty or ends in a
non-whitespace character.  This is the invariant of the running buffer of
`combineItemsIntoChunks`. -/
def endsOk (s : Str) : Bool :=
  match s.getLast? with
  | some c => !goIsSpace c
  | none => true

/-- Model of `models.VectorQuery` (`document.go:52-56`); the `float32`
threshold is modelled as a rational number (its only uses here are the
literal `0.0` and equality). -/
structure VectorQuery (V : Type) where
  vector : V
  limit : Int
  threshold : Rat

/-- Model of `DefaultRAGService.SearchSimilar` (`rag.go:115-148`), with the
embedding collaborator and the storage collaborator passed as functions.
`V` is the embedding-vector type and `R` the search-result list type; errors
are Go `error` values modelled as strings, with `fmt.Errorf("...: %w", err)`
wrapping modelled as prefixing. -/
def SearchSimilar {V R : Type}
    (generateEmbedding : Str → Except String V)
    (findSimilar : VectorQuery V → Except String R)
    (query : Str) (limit : Int) : Except String R :=
  if query = [] then .error "query cannot be empty"
  else
    let limit := if limit ≤ 0 then 5 else limit
    match generateEmbedding query with
    | .error e => .error ("failed to generate query embedding: " ++ e)
    | .ok queryEmbedding =>
      match findSimilar ⟨queryEmbedding, limit, 0⟩ with
      | .error e => .error ("failed to find similar documents: " ++ e)
      | .ok results => .ok results

/-- The part of `models.Document` (`document.go:10-16`) that the prompt
builder reads. -/
structure Document where
  content : Str

/-- Model of `DefaultRAGService.augmentQueryWithContext` (`rag.go:208-228`). -/
def augmentQueryWithContext (query : Str) (documents : List Document) : Str :=
  if documents.length = 0 then query
  else
    str "Context information is below.\n" ++
    str "---------------------\n" ++
    (documents.enum.map (fun p =>
      str "Document " ++ str (toString (p.1 + 1)) ++ str ":\n" ++
      p.2.content ++ str "\n\n")).flatten ++
    str "---------------------\n" ++
    str "Given the context information and not prior knowledge, answer the following query:\n" ++
    query

/-- Values stored in a Go `map[string]interface{}` metadata map: the source
stores ints, strings and timestamps. -/
inductive MetaVal where
  | vint (n : Int)
  | vstr (s : Str)
  | vtime (t : Nat)
deriving DecidableEq

/-- A Go `map[string]interface{}` value, modelled as an association list
whose key list is duplicate-free (a Go map cannot hold a key twice). -/
abbrev GoMap := List (String × MetaVal)

/-- Go map assignment `m[k] = v`: overwrite the binding if present,
otherwise add it. -/
def mapSet (m : GoMap) (k : String) (v : MetaVal) : GoMap :=
  match m with
  | [] => [(k, v)]
  | (k', v') :: rest => if k' = k then (k, v) :: rest else (k', v') :: mapSet rest k v

/-- Go map lookup `m[k]`. -/
def mapGet (m : GoMap) (k : String) : Option MetaVal :=
  match m with
  | [] => none
  | (k', v') :: rest => if k' = k then some v' else mapGet rest k

/-- The copy loop `for k, v := range base { meta[k] = v }` starting from a
fresh empty map. -/
def mapCopy (base : GoMap) : GoMap :=
  base.foldl (fun acc p => mapSet acc p.1 p.2) []

/-- The heap of allocated metadata maps; map values in Go are references,
modelled as indices into this list. -/
abbrev Heap := List GoMap

/-- Model of `DocumentLoader.createChunkMetadata` (loader, `document.go`
companion file lines 264-276): allocate a fresh map, copy the base map into
it, then set `chunk_index` and `chunk_count`.  Returns the new heap and the
reference to the fresh map. -/
def createChunkMetadata (h : Heap) (baseRef : Nat) (chunkIndex totalChunks : Int) :
    Heap × Nat :=
  let base := h.getD baseRef []
  let meta := mapCopy base
  let meta := mapSet meta "chunk_index" (.vint chunkIndex)
  let meta := mapSet meta "chunk_count" (.vint totalChunks)
  (h ++ [meta], h.length)

/-! ## Theorems -/

/-- Claim C5: chunking the 10-character input `"abcdefghij"` with the
fixed-size strategy, `maxSize = 4` and `overlap = 1` returns exactly the
chunks `["abcd", "defg", "ghij"]`, the windows advancing by stride
`maxSize - overlap = 3`. -/
theorem c5_fixed_size_concrete :
    ChunkText (str "abcdefghij") ⟨"fixed_size", 4, 1⟩ =
      some [str "abcd", str "defg", str "ghij"] := by decide

/-- Claim C1 counterexample: on input `"abcdefghi"` with the fixed-size
strategy, positive `maxSize = 8` and `overlap = 0`, the tail-merge step
produces the single chunk `"abcdefgh i"` of length 10, which exceeds
`maxSize` although it is not an irreducible atomic unit (its two windows
`"abcdefgh"` and `"i"` each fit in `maxSize`). -/
theorem c1_counterexample :
    ChunkText (str "abcdefghi") ⟨"fixed_size", 8, 0⟩ = some [str "abcdefgh i"] ∧
    8 < (str "abcdefgh i").length := by decide

/-- Claim C4 counterexample: the fixed-size strategy emits the
whitespace-only chunk `"    "` on the input `"a          b"` with
`maxSize = 4` and `overlap = 0`, because a window can land entirely inside
an interior whitespace run. -/
theorem c4_counterexample :
    ChunkText (str "a          b") ⟨"fixed_size", 4, 0⟩ =
      some [str "a   ", str "    ", str "   b"] ∧
    trimSpace (str "    ") = [] := by decide

/-- Claim C3 counterexample: closing the buffer `"a b c d e"` (five words,
length 9) against the item `"xxxx"` with `maxSize = 12` and `overlap = 10`
carries no overlap text forward — the next chunk is the bare `"xxxx"` —
although the overlap is positive and the closed buffer has more than three
words, because the code additionally requires the closed buffer to be
longer than `overlap` characters, a condition the claim omits. -/
theorem c3_counterexample :
    combineItemsIntoChunks [str "a b c d e", str "xxxx"] 12 10 =
      some [str "a b c d e", str "xxxx"] ∧
    (0 : Int) < 10 ∧ 3 < (fields (str "a b c d e")).length ∧
    getOverlapText (fields (str "a b c d e")) 10 ++ ' ' :: str "xxxx" ≠
      str "xxxx" := by decide

/-- Claim C10: sentence splitting is *not* character-conserving: when the
text ends in a sentence terminator, the end-of-text branch of
`splitIntoSentences` appends the final sentence and breaks without
resetting the builder, and the post-loop flush then appends the same
sentence a second time.  On `"Hi."` the function returns the final sentence
twice, so the concatenation of the returned sentences is not the input. -/
theorem c10_duplicate_final_sentence :
    splitIntoSentences (str "Hi.") = [str "Hi.", str "Hi."] ∧
    (splitIntoSentences (str "Hi.")).flatten ≠ str "Hi." := by decide

/-- Claim C8: query prompt degradation — when zero documents are retrieved,
the augmented prompt equals the bare original query, with no context
framing added. -/
theorem c8_bare_query_when_no_documents (query : Str) :
    augmentQueryWithContext query [] = query := rfl

/-- Claim C2: paragraph-strategy short-circuit — if every blank-line
separated, trimmed, non-empty paragraph has length at most `maxSize`, then
`ChunkText` with the paragraph strategy returns exactly the trimmed
paragraph list, element for element, in original order, with no merging and
no overlap applied. -/
theorem c2_paragraph_short_circuit (text : Str) (maxSize overlap : Int)
    (h : ∀ p ∈ cleanPieces (splitParas text), (p.length : Int) ≤ maxSize) :
    ChunkText text ⟨"paragraph", maxSize, overlap⟩ =
      some (cleanPieces (splitParas text)) := by
  have hstep : ChunkText text ⟨"paragraph", maxSize, overlap⟩ =
      chunkByParagraph text maxSize overlap := rfl
  rw [hstep]
  unfold chunkByParagraph
  by_cases hnil : cleanPieces (splitParas text) = []
  · simp [hnil]
  · have hall : allParagraphsUnderMaxSize (cleanPieces (splitParas text)) maxSize = true := by
      unfold allParagraphsUnderMaxSize
      rw [List.all_eq_true]
      intro p hp
      simpa using h p hp
    simp [hnil, hall]

/-- Claim C2 witness: the short-circuit at the concrete input
`"Para one.\n\nPara two."` with `maxSize = 1000`. -/
theorem c2_paragraph_short_circuit_witness :
    (∀ p ∈ cleanPieces (splitParas (str "Para one.\n\nPara two.")),
      (p.length : Int) ≤ 1000) ∧
    ChunkText (str "Para one.\n\nPara two.") ⟨"paragraph", 1000, 0⟩ =
      some (cleanPieces (splitParas (str "Para one.\n\nPara two."))) :=
  ⟨by decide, c2_paragraph_short_circuit _ 1000 0 (by decide)⟩

/-- Claim C7: `SearchSimilar` rejects the empty query with a validation
error whatever the collaborators do (so no embedding or storage call can
influence the outcome); for a non-empty query a non-positive caller limit
is replaced by the default 5; and the storage collaborator is only
consulted at a vector query whose threshold is zero and whose limit is the
substituted one. -/
theorem c7_search_similar_validation_and_default :
    (∀ (V R : Type) (generateEmbedding : Str → Except String V)
       (findSimilar : VectorQuery V → Except String R) (limit : Int),
       SearchSimilar generateEmbedding findSimilar [] limit =
         .error "query cannot be empty") ∧
    (∀ (V R : Type) (generateEmbedding : Str → Except String V)
       (findSimilar : VectorQuery V → Except String R) (query : Str) (limit : Int),
       query ≠ [] → limit ≤ 0 →
       SearchSimilar generateEmbedding findSimilar query limit =
         SearchSimilar generateEmbedding findSimilar query 5) ∧
    (∀ (V R : Type) (generateEmbedding : Str → Except String V)
       (findSimilar findSimilar' : VectorQuery V → Except String R)
       (query : Str) (limit : Int),
       query ≠ [] →
       (∀ vq, vq.threshold = 0 → vq.limit = (if limit ≤ 0 then 5 else limit) →
         findSimilar vq = findSimilar' vq) →
       SearchSimilar generateEmbedding findSimilar query limit =
         SearchSimilar generateEmbedding findSimilar' query limit) := by
  refine ⟨?_, ?_, ?_⟩
  · intro V R ge fs limit
    simp [SearchSimilar]
  · intro V R ge fs query limit hq hl
    unfold SearchSimilar
    rw [if_neg hq, if_neg hq, if_pos hl]
    norm_num
  · intro V R ge fs fs' query limit hq hagree
    unfold SearchSimilar
    rw [if_neg hq, if_neg hq]
    cases ge query with
    | error e => rfl
    | ok v =>
      simp only
      rw [hagree ⟨v, if limit ≤ 0 then 5 else limit, 0⟩ rfl rfl]

/-- Claim C7 witness: concrete collaborators observing the substituted
limit and the empty-query rejection. -/
theorem c7_witness :
    (str "q" ≠ [] ∧ (0 : Int) ≤ 0) ∧
    SearchSimilar (fun _ => Except.ok (0 : Int))
        (fun vq => Except.ok vq.limit) (str "q") 0 =
      SearchSimilar (fun _ => Except.ok (0 : Int))
        (fun vq => Except.ok vq.limit) (str "q") 5 ∧
    SearchSimilar (fun _ => Except.ok (0 : Int))
        (fun vq => Except.ok vq.limit) [] 7 =
      Except.error "query cannot be empty" :=
  ⟨⟨by decide, le_refl 0⟩,
   c7_search_similar_validation_and_default.2.1 Int Int _ _ _ _ (by decide) (le_refl 0),
   c7_search_similar_validation_and_default.1 Int Int _ _ _⟩

theorem mapGet_mapSet_self (m : GoMap) (k : String) (v : MetaVal) :
    mapGet (mapSet m k v) k = some v := by
  induction m with
  | nil => simp [mapSet, mapGet]
  | cons p rest ih =>
    obtain ⟨k', v'⟩ := p
    by_cases h : k' = k
    · subst h; simp [mapSet, mapGet]
    · simp [mapSet, mapGet, h, ih]

theorem mapGet_mapSet_ne (m : GoMap) (k k' : String) (v : MetaVal) (h : k' ≠ k) :
    mapGet (mapSet m k v) k' = mapGet m k' := by
  have h' : ¬k = k' := fun hh => h hh.symm
  induction m with
  | nil => simp [mapSet, mapGet, h']
  | cons p rest ih =>
    obtain ⟨k₀, v₀⟩ := p
    by_cases h0 : k₀ = k
    · subst h0
      simp [mapSet, mapGet, h']
    · simp [mapSet, mapGet, h0, ih]

theorem mapGet_eq_none_of_not_mem (m : GoMap) (k : String)
    (hk : k ∉ m.map Prod.fst) : mapGet m k = none := by
  induction m with
  | nil => rfl
  | cons p rest ih =>
    obtain ⟨k₀, v₀⟩ := p
    simp only [List.map_cons, List.mem_cons, not_or] at hk
    have h' : ¬k₀ = k := fun hh => hk.1 hh.symm
    simp [mapGet, h', ih hk.2]

theorem mapGet_foldl_mapSet (m : GoMap) :
    ∀ (acc : GoMap) (k : String), (m.map Prod.fst).Nodup →
      mapGet (m.foldl (fun a p => mapSet a p.1 p.2) acc) k =
        (mapGet m k).or (mapGet acc k) := by
  induction m with
  | nil => intro acc k _; simp [mapGet]
  | cons p rest ih =>
    intro acc k hnd
    obtain ⟨k₀, v₀⟩ := p
    simp only [List.map_cons, List.nodup_cons] at hnd
    rw [List.foldl_cons, ih _ k hnd.2]
    by_cases h0 : k₀ = k
    · subst h0
      rw [mapGet_eq_none_of_not_mem rest k₀ hnd.1]
      simp [mapGet, mapGet_mapSet_self]
    · simp [mapGet, h0, mapGet_mapSet_ne _ _ _ _ (fun hh => h0 hh.symm)]

theorem mapGet_mapCopy (m : GoMap) (k : String)
    (hnd : (m.map Prod.fst).Nodup) : mapGet (mapCopy m) k = mapGet m k := by
  unfold mapCopy
  rw [mapGet_foldl_mapSet m [] k hnd]
  cases mapGet m k <;> rfl

/-- Claim C9: `createChunkMetadata` returns a fresh map that agrees with the
base map on every key except `chunk_index` and `chunk_count`, which are set
to the given index and total; every previously allocated map, in particular
the caller's base map, is left completely unchanged. -/
theorem c9_chunk_metadata_copy_semantics (h : Heap) (baseRef : Nat)
    (chunkIndex totalChunks : Int)
    (hnd : ((h.getD baseRef []).map Prod.fst).Nodup) :
    (∀ j, j < h.length →
      (createChunkMetadata h baseRef chunkIndex totalChunks).1[j]? = h[j]?) ∧
    mapGet ((createChunkMetadata h baseRef chunkIndex totalChunks).1.getD
        (createChunkMetadata h baseRef chunkIndex totalChunks).2 [])
      "chunk_index" = some (.vint chunkIndex) ∧
    mapGet ((createChunkMetadata h baseRef chunkIndex totalChunks).1.getD
        (createChunkMetadata h baseRef chunkIndex totalChunks).2 [])
      "chunk_count" = some (.vint totalChunks) ∧
    (∀ k, k ≠ "chunk_index" → k ≠ "chunk_count" →
      mapGet ((createChunkMetadata h baseRef chunkIndex totalChunks).1.getD
          (createChunkMetadata h baseRef chunkIndex totalChunks).2 []) k =
        mapGet (h.getD baseRef []) k) := by
  have hres : ((createChunkMetadata h baseRef chunkIndex totalChunks).1.getD
      (createChunkMetadata h baseRef chunkIndex totalChunks).2 []) =
      mapSet (mapSet (mapCopy (h.getD baseRef []))
        "chunk_index" (.vint chunkIndex)) "chunk_count" (.vint totalChunks) := by
    show (h ++ [_]).getD h.length [] = _
    rw [List.getD_eq_getElem?_getD, List.getElem?_concat_length]
    rfl
  refine ⟨?_, ?_, ?_, ?_⟩
  · intro j hj
    show (h ++ [_])[j]? = h[j]?
    rw [List.getElem?_append, if_pos hj]
  · rw [hres, mapGet_mapSet_ne _ _ _ _ (by decide), mapGet_mapSet_self]
  · rw [hres, mapGet_mapSet_self]
  · intro k hk1 hk2
    rw [hres, mapGet_mapSet_ne _ _ _ _ hk2, mapGet_mapSet_ne _ _ _ _ hk1,
      mapGet_mapCopy _ _ hnd]

/-- Claim C9 witness: the copy semantics at a concrete one-map heap. -/
theorem c9_chunk_metadata_copy_semantics_witness :
    ((([[("source", MetaVal.vstr (str "file"))]] : Heap).getD 0 []).map
        Prod.fst).Nodup ∧
    (∀ j, j < ([[("source", MetaVal.vstr (str "file"))]] : Heap).length →
      (createChunkMetadata [[("source", MetaVal.vstr (str "file"))]] 0 2 5).1[j]? =
        ([[("source", MetaVal.vstr (str "file"))]] : Heap)[j]?) ∧
    mapGet ((createChunkMetadata [[("source", MetaVal.vstr (str "file"))]] 0 2 5).1.getD
        (createChunkMetadata [[("source", MetaVal.vstr (str "file"))]] 0 2 5).2 [])
      "chunk_index" = some (.vint 2) := by
  have hc := c9_chunk_metadata_copy_semantics
    [[("source", MetaVal.vstr (str "file"))]] 0 2 5 (by decide)
  exact ⟨by decide, hc.1, hc.2.1⟩

/-! ### Lemmas about `trimSpace`, `endsOk` and `slice` -/

theorem endsOk_append (xs s : Str) (hs : s ≠ []) (h : endsOk s = true) :
    endsOk (xs ++ s) = true := by
  unfold endsOk at h ⊢
  rw [List.getLast?_append]
  cases hh : s.getLast? with
  | none => exact absurd (List.getLast?_eq_none_iff.mp hh) hs
  | some c => rw [hh] at h; simpa [Option.or] using h

theorem getLast?_of_dropWhile_ne_nil (p : Char → Bool) (s : Str)
    (h : s.dropWhile p ≠ []) : (s.dropWhile p).getLast? = s.getLast? := by
  obtain ⟨pre, hpre⟩ := List.dropWhile_suffix p (l := s)
  conv_rhs => rw [← hpre]
  rw [List.getLast?_append]
  cases hh : (s.dropWhile p).getLast? with
  | none => exact absurd (List.getLast?_eq_none_iff.mp hh) h
  | some c => rfl

theorem trimSpace_spec (s : Str) (hs : s ≠ []) (h : endsOk s = true) :
    trimSpace s ≠ [] ∧ (trimSpace s).getLast? = s.getLast? := by
  unfold endsOk at h
  cases hc : s.getLast? with
  | none => exact absurd (List.getLast?_eq_none_iff.mp hc) hs
  | some c =>
    rw [hc] at h
    have hcsp : goIsSpace c = false := by simpa using h
    have hd : s.dropWhile goIsSpace ≠ [] := by
      intro hnil
      rw [List.dropWhile_eq_nil_iff] at hnil
      obtain ⟨ys, hys⟩ := List.getLast?_eq_some_iff.mp hc
      have : goIsSpace c = true := hnil c (by rw [hys]; simp)
      rw [this] at hcsp; exact absurd hcsp (by decide)
    have hdl : (s.dropWhile goIsSpace).getLast? = some c := by
      rw [getLast?_of_dropWhile_ne_nil _ _ hd, hc]
    -- the reversed remainder starts with the non-space character c
    have hv : (s.dropWhile goIsSpace).reverse.head? = some c := by
      rw [List.head?_reverse]; exact hdl
    obtain ⟨v', hv'⟩ : ∃ v', (s.dropWhile goIsSpace).reverse = c :: v' := by
      cases hvv : (s.dropWhile goIsSpace).reverse with
      | nil => rw [hvv] at hv; exact absurd hv (by simp)
      | cons a t =>
        rw [hvv] at hv
        simp only [List.head?_cons, Option.some.injEq] at hv
        exact ⟨t, by rw [hv]⟩
    unfold trimSpace
    rw [hv', List.dropWhile_cons, hcsp]
    simp only [Bool.false_eq_true, if_false]
    constructor
    · simp
    · simp [hc]

theorem trimSpace_endsOk (s : Str) : endsOk (trimSpace s) = true := by
  unfold endsOk trimSpace
  rw [List.getLast?_reverse]
  have := List.head?_dropWhile_not goIsSpace (s.dropWhile goIsSpace).reverse
  cases hh : ((s.dropWhile goIsSpace).reverse.dropWhile goIsSpace).head? with
  | none => rfl
  | some x =>
    rw [hh] at this
    simpa using this

theorem trimSpace_length_le (s : Str) : (trimSpace s).length ≤ s.length := by
  unfold trimSpace
  have h1 := (List.dropWhile_sublist (l := s) goIsSpace).length_le
  have h2 := (List.dropWhile_sublist (l := (s.dropWhile goIsSpace).reverse)
    goIsSpace).length_le
  simp only [List.length_reverse] at h1 h2 ⊢
  omega

theorem trimSpace_eq_nil_iff (s : Str) :
    trimSpace s = [] ↔ s.all goIsSpace = true := by
  unfold trimSpace
  rw [List.reverse_eq_nil_iff, List.dropWhile_eq_nil_iff]
  constructor
  · intro h
    rw [List.all_eq_true]
    intro x hx
    rcases List.mem_append.mp
        (by rw [List.takeWhile_append_dropWhile (p := goIsSpace)]; exact hx :
          x ∈ s.takeWhile goIsSpace ++ s.dropWhile goIsSpace) with hx' | hx'
    · exact List.mem_takeWhile_imp hx'
    · exact h x (by simpa using hx')
  · intro h x hx
    rw [List.all_eq_true] at h
    exact h x (List.dropWhile_sublist goIsSpace |>.subset (by simpa using hx))

theorem slice_length (t : Str) (i e : Nat) (h : e ≤ t.length) :
    (slice t i e).length = e - i := by
  simp only [slice, List.length_take, List.length_drop]
  omega

theorem slice_to_end (t : Str) (i : Nat) : slice t i t.length = t.drop i := by
  unfold slice
  exact List.take_of_length_le (by simp)

theorem getLast?_drop (t : Str) (i : Nat) (h : i < t.length) :
    (t.drop i).getLast? = t.getLast? := by
  conv_rhs => rw [← List.take_append_drop i t]
  rw [List.getLast?_append]
  cases hh : (t.drop i).getLast? with
  | none =>
    have : (t.drop i).length = 0 := by rw [List.getLast?_eq_none_iff.mp hh]; rfl
    rw [List.length_drop] at this
    omega
  | some c => rfl

theorem getLastD_mem (l : List Str) (h : l ≠ []) : l.getLastD [] ∈ l := by
  rw [List.getLastD_eq_getLast?, List.getLast?_eq_getLast_of_ne_nil h]
  exact List.getLast_mem h

/-! ### The fixed-size sliding-window loop -/

theorem tdiv4_facts (m : Int) (hm : 0 ≤ m) : 0 ≤ m.tdiv 4 ∧ m.tdiv 4 ≤ m := by
  constructor
  · exact Int.tdiv_nonneg hm (by norm_num)
  · rw [Int.tdiv_eq_ediv hm (by norm_num)]
    exact Int.ediv_le_self 4 hm

theorem fixedLoop_spec (t : Str) (maxSize overlap : Int)
    (hms : 0 < maxSize) (hov : 0 ≤ overlap) (holt : overlap < maxSize) :
    ∀ (fuel : Nat) (i : Int) (chunks : List Str),
      0 ≤ i → i < (t.length : Int) → (t.length : Int) ≤ i + fuel →
      (∀ c ∈ chunks, c ≠ [] ∧ (c.length : Int) ≤ maxSize) →
      ∃ cs, fixedLoop fuel t maxSize overlap i chunks = some cs ∧
        cs ≠ [] ∧
        (∀ c ∈ cs, c ≠ [] ∧ (c.length : Int) ≤ maxSize + maxSize.tdiv 4) ∧
        (cs.getLastD []).getLast? = t.getLast? := by
  have hd4 := tdiv4_facts maxSize hms.le
  intro fuel
  induction fuel with
  | zero =>
    intro i chunks h0 h1 h2 _
    exfalso; omega
  | succ fuel ih =>
    intro i chunks h0 h1 h2 hchunks
    have hIN : i.toNat < t.length := by omega
    have hiN : i.toNat = i := Int.toNat_of_nonneg h0
    rw [fixedLoop]
    rw [if_pos h1]
    have hemin : min (i + maxSize) (t.length : Int) ≤ (t.length : Int) :=
      min_le_right _ _
    have hilt : i < min (i + maxSize) (t.length : Int) := lt_min (by omega) h1
    have heN : (min (i + maxSize) (t.length : Int)).toNat ≤ t.length := by omega
    have hieN : i.toNat < (min (i + maxSize) (t.length : Int)).toNat := by omega
    have hslice_len :
        ((slice t i.toNat (min (i + maxSize) (t.length : Int)).toNat).length : Int) =
          min (i + maxSize) (t.length : Int) - i := by
      rw [slice_length t _ _ heN]; omega
    have hslice_ne : slice t i.toNat (min (i + maxSize) (t.length : Int)).toNat ≠ [] := by
      intro hnil
      rw [hnil] at hslice_len
      simp only [List.length_nil, Int.ofNat_eq_coe, Nat.cast_zero] at hslice_len
      omega
    by_cases hmerge : min (i + maxSize) (t.length : Int) - i < maxSize.tdiv 4 ∧ chunks ≠ []
    · -- tail-merge branch: extend the last chunk and stop
      rw [if_pos hmerge]
      have hend : min (i + maxSize) (t.length : Int) = (t.length : Int) := by
        rcases min_choice (i + maxSize) ((t.length : Int)) with hmin | hmin
        · exfalso; rw [hmin] at hmerge; omega
        · exact hmin
      have hlast := hchunks (chunks.getLastD []) (getLastD_mem chunks hmerge.2)
      refine ⟨_, rfl, by simp, ?_, ?_⟩
      · intro c hc
        rcases List.mem_append.mp hc with hc' | hc'
        · have := hchunks c (List.dropLast_subset chunks hc')
          exact ⟨this.1, by omega⟩
        · rw [List.mem_singleton] at hc'
          subst hc'
          refine ⟨by simp, ?_⟩
          rw [List.length_append, List.length_cons]
          push_cast
          rw [hslice_len]
          omega
      · rw [List.getLastD_concat, List.getLast?_append, List.getLast?_cons]
        have hsl : slice t i.toNat (min (i + maxSize) (t.length : Int)).toNat =
            t.drop i.toNat := by
          have : (min (i + maxSize) (t.length : Int)).toNat = t.length := by omega
          rw [this, slice_to_end]
        rw [hsl, getLast?_drop t i.toNat hIN]
        cases hh : t.getLast? with
        | none =>
          have : t = [] := List.getLast?_eq_none_iff.mp hh
          rw [this] at hIN; simp at hIN
        | some c => rfl
    · rw [if_neg hmerge]
      by_cases hend : min (i + maxSize) (t.length : Int) = (t.length : Int)
      · rw [if_pos hend]
        refine ⟨_, rfl, by simp, ?_, ?_⟩
        · intro c hc
          rcases List.mem_append.mp hc with hc' | hc'
          · have := hchunks c hc'
            exact ⟨this.1, by omega⟩
          · rw [List.mem_singleton] at hc'
            subst hc'
            refine ⟨hslice_ne, ?_⟩
            rw [hslice_len]
            omega
        · rw [List.getLastD_concat]
          have : (min (i + maxSize) (t.length : Int)).toNat = t.length := by omega
          rw [this, slice_to_end]
          exact getLast?_drop t i.toNat hIN
      · rw [if_neg hend]
        have hlt : i + maxSize < (t.length : Int) := by
          rcases min_choice (i + maxSize) ((t.length : Int)) with hmin | hmin
          · rw [hmin] at hend hemin
            rcases lt_or_eq_of_le hemin with hh | hh
            · exact hh
            · exact absurd hh hend
          · exact absurd hmin hend
        apply ih
        · omega
        · omega
        · omega
        · intro c hc
          rcases List.mem_append.mp hc with hc' | hc'
          · exact hchunks c hc'
          · rw [List.mem_singleton] at hc'
            subst hc'
            refine ⟨hslice_ne, ?_⟩
            rw [hslice_len]
            omega

theorem chunkByFixedSize_spec (text : Str) (maxSize overlap : Int)
    (hms : 0 < maxSize) (hov : 0 ≤ overlap) (holt : overlap < maxSize) :
    ∃ cs, chunkByFixedSize text maxSize overlap = some cs ∧
      (∀ c ∈ cs, c ≠ [] ∧ (c.length : Int) ≤ maxSize + maxSize.tdiv 4) ∧
      (cs.getLastD []).getLast? = (trimSpace text).getLast? ∧
      (trimSpace text = [] ↔ cs = []) := by
  have hd4 := tdiv4_facts maxSize hms.le
  unfold chunkByFixedSize
  by_cases hnil : trimSpace text = []
  · rw [if_pos hnil]
    exact ⟨[], rfl, by simp, by rw [hnil]; rfl, by simp [hnil]⟩
  · rw [if_neg hnil]
    by_cases hsmall : ((trimSpace text).length : Int) ≤ maxSize
    · rw [if_pos hsmall]
      refine ⟨[trimSpace text], rfl, ?_, by simp [List.getLastD], by simp [hnil]⟩
      intro c hc
      rw [List.mem_singleton] at hc
      subst hc
      exact ⟨hnil, by omega⟩
    · rw [if_neg hsmall]
      have hlen : 0 < (trimSpace text).length := List.length_pos.mpr hnil
      obtain ⟨cs, hcs, hne, hall, hlast⟩ :=
        fixedLoop_spec (trimSpace text) maxSize overlap hms hov holt
          ((trimSpace text).length + 1) 0 [] le_rfl (by omega)
          (by omega) (by simp)
      exact ⟨cs, hcs, hall, hlast, by simp [hnil, hne]⟩

/-- Claim C6: termination of fixed-size chunking under the intended
configuration invariant — for every input text, `maxSize > 0` and
`0 ≤ overlap < maxSize` (positive stride), `chunkByFixedSize` terminates
and returns a chunk list. -/
theorem c6_fixed_size_terminates (text : Str) (maxSize overlap : Int)
    (hms : 0 < maxSize) (hov : 0 ≤ overlap) (holt : overlap < maxSize) :
    ∃ cs, chunkByFixedSize text maxSize overlap = some cs := by
  obtain ⟨cs, hcs, _⟩ := chunkByFixedSize_spec text maxSize overlap hms hov holt
  exact ⟨cs, hcs⟩

/-- Claim C6 witness: termination at a concrete input. -/
theorem c6_fixed_size_terminates_witness :
    (0 : Int) < 4 ∧ (0 : Int) ≤ 1 ∧ (1 : Int) < 4 ∧
    ∃ cs, chunkByFixedSize (str "abcdefghij") 4 1 = some cs :=
  ⟨by norm_num, by norm_num, by norm_num,
   c6_fixed_size_terminates (str "abcdefghij") 4 1 (by norm_num) (by norm_num)
     (by norm_num)⟩

/-! ### The overlap tail -/

theorem sumLen_nil : sumLen [] = 0 := rfl

theorem sumLen_cons (w : Str) (l : List Str) :
    sumLen (w :: l) = ((w.length : Int) + 1) + sumLen l := by
  simp [sumLen]

theorem sumLen_reverse (l : List Str) : sumLen l.reverse = sumLen l := by
  simp only [sumLen, List.map_reverse, List.sum_reverse]

theorem sumLen_take_reverse (ws : List Str) (n : Nat) :
    sumLen (ws.reverse.take n) = sumLen (ws.drop (ws.length - n)) := by
  rw [List.take_reverse, sumLen_reverse]

theorem revTake_spec (ov : Int) :
    ∀ (rws : List Str) (total : Int), total < ov →
      (∀ n, revTake ov rws total = some n →
        1 ≤ n ∧ n ≤ rws.length ∧ ov ≤ total + sumLen (rws.take n) ∧
        total + sumLen (rws.take (n - 1)) < ov) ∧
      (revTake ov rws total = none → total + sumLen rws < ov) := by
  intro rws
  induction rws with
  | nil =>
    intro total htot
    refine ⟨?_, ?_⟩
    · intro n hn
      exact absurd hn (by simp [revTake])
    · intro _
      simpa [sumLen_nil]
  | cons w rws ih =>
    intro total htot
    simp only [revTake]
    by_cases hreach : ov ≤ total + w.length + 1
    · rw [if_pos hreach]
      refine ⟨?_, ?_⟩
      · intro n hn
        have hn1 : n = 1 := by injection hn with hh; omega
        subst hn1
        have ht1 : (w :: rws).take 1 = [w] := rfl
        have ht0 : (w :: rws).take 0 = [] := rfl
        refine ⟨le_rfl, by simp, ?_, ?_⟩
        · rw [ht1, sumLen_cons, sumLen_nil]
          push_cast at hreach ⊢
          omega
        · simpa [ht0, sumLen_nil]
      · intro hn
        exact absurd hn (by simp)
    · rw [if_neg hreach]
      have htot' : total + w.length + 1 < ov := by omega
      obtain ⟨ihs, ihn⟩ := ih (total + w.length + 1) htot'
      cases hrec : revTake ov rws (total + w.length + 1) with
      | none =>
        refine ⟨?_, ?_⟩
        · intro n hn
          have hn' : (none : Option Nat) = some n := hn
          exact absurd hn' (by simp)
        · intro _
          have := ihn hrec
          rw [sumLen_cons]
          push_cast at this ⊢
          omega
      | some m =>
        refine ⟨?_, ?_⟩
        · intro n hn
          have hn' : some (m + 1) = some n := hn
          have hnm : n = m + 1 := by injection hn' with hh; omega
          subst hnm
          obtain ⟨hm1, hmlen, hmge, hmlt⟩ := ihs m hrec
          have htake : (w :: rws).take (m + 1) = w :: rws.take m := rfl
          have htake' : (w :: rws).take (m + 1 - 1) = w :: rws.take (m - 1) := by
            have : m + 1 - 1 = (m - 1) + 1 := by omega
            rw [this]
            rfl
          refine ⟨by omega, by simp; omega, ?_, ?_⟩
          · rw [htake, sumLen_cons]
            omega
          · rw [htake', sumLen_cons]
            omega
        · intro hn
          have hn' : some (m + 1) = (none : Option Nat) := hn
          exact absurd hn' (by simp)

/-- Claim C3 amended: (i) when the running buffer closes against an item,
the next buffer is seeded with the overlap tail exactly when the overlap is
positive AND the closed buffer is longer than `overlap` characters AND the
buffer has more than three words, and is the bare item otherwise; (ii) the
overlap tail is the join of a trailing suffix of the buffer's words whose
accumulated `len(word)+1` total is at least `overlap`, minimal in that
dropping its first word puts the total below `overlap` (the suffix is empty
when even all words accumulate less than `overlap`). -/
theorem c3_amended :
    (∀ (maxSize overlap : Int) (chunks : List Str) (cur item : Str),
      0 < cur.length → maxSize < (cur.length : Int) + 1 + item.length →
      combineClose maxSize overlap (chunks, cur) item =
        (chunks ++ [trimSpace cur],
         if 0 < overlap ∧ overlap < (cur.length : Int) ∧ 3 < (fields cur).length
         then getOverlapText (fields cur) overlap ++ ' ' :: item
         else item)) ∧
    (∀ (ws : List Str) (overlap : Int), 0 < overlap →
      ∃ k, k ≤ ws.length ∧
        getOverlapText ws overlap = List.intercalate [' '] (ws.drop k) ∧
        (k < ws.length → overlap ≤ sumLen (ws.drop k)) ∧
        sumLen (ws.drop (k + 1)) < overlap ∧
        (k = ws.length → sumLen ws < overlap)) := by
  constructor
  · intro maxSize overlap chunks cur item h1 h2
    unfold combineClose
    rw [if_pos ⟨h1, h2⟩]
    by_cases hov : 0 < overlap ∧ overlap < (cur.length : Int)
    · rw [if_pos hov]
      by_cases hw : 3 < (fields cur).length
      · rw [if_pos hw, if_pos ⟨hov.1, hov.2, hw⟩]
      · rw [if_neg hw, if_neg (fun hh => hw hh.2.2)]
    · rw [if_neg hov, if_neg (fun hh => hov ⟨hh.1, hh.2.1⟩)]
  · intro ws overlap hov
    unfold getOverlapText
    cases hr : revTake overlap ws.reverse 0 with
    | none =>
      refine ⟨ws.length, le_rfl, rfl, ?_, ?_, ?_⟩
      · intro hlt; omega
      · rw [List.drop_eq_nil_of_le (by omega)]
        rw [sumLen_nil]; omega
      · intro _
        have := (revTake_spec overlap ws.reverse 0 (by omega)).2 hr
        rw [sumLen_reverse] at this
        omega
    | some n =>
      obtain ⟨hn1, hnlen, hnge, hnlt⟩ :=
        (revTake_spec overlap ws.reverse 0 (by omega)).1 n hr
      rw [List.length_reverse] at hnlen
      refine ⟨ws.length - n, by omega, rfl, ?_, ?_, ?_⟩
      · intro _
        have := sumLen_take_reverse ws n
        omega
      · have hk1 : ws.length - n + 1 = ws.length - (n - 1) := by omega
        rw [hk1, ← sumLen_take_reverse ws (n - 1)]
        omega
      · intro hk
        omega

/-- Claim C3 amended witness: the close step at the concrete counterexample
input (where the length condition fails and the bare item is kept). -/
theorem c3_amended_witness :
    0 < (str "a b c d e").length ∧
    (12 : Int) < ((str "a b c d e").length : Int) + 1 + (str "xxxx").length ∧
    combineClose 12 10 ([], str "a b c d e") (str "xxxx") =
      ([trimSpace (str "a b c d e")],
       if (0 : Int) < 10 ∧ (10 : Int) < ((str "a b c d e").length : Int) ∧
           3 < (fields (str "a b c d e")).length
       then getOverlapText (fields (str "a b c d e")) 10 ++ ' ' :: str "xxxx"
       else str "xxxx") :=
  ⟨by decide, by decide, c3_amended.1 12 10 [] _ _ (by decide) (by decide)⟩

/-! ### Well-formedness of the chunk lists (claim C4) -/

theorem not_punct_of_space (c : Char) (h : goIsSpace c = true) :
    ¬(c = '.' ∨ c = '!' ∨ c = '?') := by
  intro hp
  rcases hp with rfl | rfl | rfl <;> exact absurd h (by decide)

theorem splitParas_all_space (t : Str) (h : t.all goIsSpace = true) :
    ∀ s ∈ splitParas t, s.all goIsSpace = true := by
  induction t using splitParas.induct with
  | case1 =>
    intro s hs
    simp only [splitParas, List.mem_singleton] at hs
    subst hs; rfl
  | case2 rest ih =>
    intro s hs
    simp only [List.all_cons, Bool.and_eq_true] at h
    simp only [splitParas, List.mem_cons] at hs
    rcases hs with hs | hs
    · subst hs; rfl
    · exact ih h.2.2 s hs
  | case3 c rest hne s1 ss1 heq ih =>
    intro s hs
    simp only [List.all_cons, Bool.and_eq_true] at h
    rw [splitParas.eq_3 c rest hne, heq] at hs
    rcases List.mem_cons.mp hs with hs' | hs'
    · subst hs'
      rw [List.all_cons, Bool.and_eq_true]
      refine ⟨h.1, ?_⟩
      exact ih h.2 s1 (by rw [heq]; exact List.mem_cons_self _ _)
    · exact ih h.2 s (by rw [heq]; exact List.mem_cons_of_mem _ hs')
  | case4 c rest hne heq ih =>
    intro s hs
    simp only [List.all_cons, Bool.and_eq_true] at h
    rw [splitParas.eq_3 c rest hne, heq] at hs
    simp only [List.mem_singleton] at hs
    subst hs
    simp [h.1]

theorem sentLoop_no_punct :
    ∀ (t : Str), (∀ c ∈ t, ¬(c = '.' ∨ c = '!' ∨ c = '?')) →
    ∀ (cur : Str) (ab : Bool),
      sentLoop cur ab t = if cur ++ t = [] then [] else [cur ++ t] := by
  intro t
  induction t with
  | nil =>
    intro _ cur ab
    rw [sentLoop.eq_1]
    by_cases hc : cur = [] <;> simp [hc]
  | cons r rest ih =>
    intro h cur ab
    have hr : ¬(r = '.' ∨ r = '!' ∨ r = '?') := h r (List.mem_cons_self _ _)
    have hrest : ∀ c ∈ rest, ¬(c = '.' ∨ c = '!' ∨ c = '?') :=
      fun c hc => h c (List.mem_cons_of_mem _ hc)
    match rest with
    | [] =>
      rw [sentLoop.eq_4, if_neg hr, ih hrest]
      rw [← List.append_cons]
    | [c2] =>
      rw [sentLoop.eq_3, if_neg hr, ih hrest]
      rw [← List.append_cons]
    | c2 :: c3 :: tail =>
      rw [sentLoop.eq_2, if_neg hr, ih hrest]
      rw [← List.append_cons]

theorem splitIntoSentences_all_space (t : Str) (h : t.all goIsSpace = true) :
    ∀ s ∈ splitIntoSentences t, s.all goIsSpace = true := by
  intro s hs
  unfold splitIntoSentences at hs
  rw [List.all_eq_true] at h
  rw [sentLoop_no_punct t (fun c hc => not_punct_of_space c (h c hc)) [] false] at hs
  by_cases ht : ([] : Str) ++ t = []
  · rw [if_pos ht] at hs
    exact absurd hs (List.not_mem_nil s)
  · rw [if_neg ht] at hs
    rw [List.mem_singleton] at hs
    subst hs
    rw [List.all_eq_true]
    intro c hc
    exact h c (by simpa using hc)

theorem cleanPieces_mem (l : List Str) :
    ∀ s ∈ cleanPieces l, s ≠ [] ∧ endsOk s = true := by
  intro s hs
  unfold cleanPieces at hs
  rw [List.mem_filter] at hs
  obtain ⟨hmem, hpred⟩ := hs
  rw [List.mem_map] at hmem
  obtain ⟨p, _, rfl⟩ := hmem
  exact ⟨by simpa using hpred, trimSpace_endsOk p⟩

theorem cleanPieces_eq_nil (l : List Str) (h : ∀ s ∈ l, s.all goIsSpace = true) :
    cleanPieces l = [] := by
  unfold cleanPieces
  rw [List.filter_eq_nil_iff]
  intro a ha
  rw [List.mem_map] at ha
  obtain ⟨p, hp, rfl⟩ := ha
  have ht : trimSpace p = [] := (trimSpace_eq_nil_iff p).mpr (h p hp)
  simp [ht]

theorem combineClose_spec (maxSize overlap : Int) (st : List Str × Str)
    (item : Str) (hitem : item ≠ [] ∧ endsOk item = true)
    (hchunks : ∀ c ∈ st.1, c ≠ [] ∧ (c.length : Int) ≤ maxSize + maxSize.tdiv 4)
    (hcur : endsOk st.2 = true)
    (hcurB : (st.2.length : Int) ≤ maxSize + maxSize.tdiv 4) :
    (∀ c ∈ (combineClose maxSize overlap st item).1,
      c ≠ [] ∧ (c.length : Int) ≤ maxSize + maxSize.tdiv 4) ∧
    endsOk (combineClose maxSize overlap st item).2 = true := by
  obtain ⟨chunks, cur⟩ := st
  have hcurB' : (cur.length : Int) ≤ maxSize + maxSize.tdiv 4 := hcurB
  unfold combineClose
  by_cases h1 : 0 < cur.length ∧ maxSize < (cur.length : Int) + 1 + item.length
  · rw [if_pos h1]
    have hcurne : cur ≠ [] := by
      intro hh
      rw [hh] at h1
      simp at h1
    have htrim := trimSpace_spec cur hcurne hcur
    have htrimlen := trimSpace_length_le cur
    have hchunks' : ∀ c ∈ chunks ++ [trimSpace cur],
        c ≠ [] ∧ (c.length : Int) ≤ maxSize + maxSize.tdiv 4 := by
      intro c hc
      rcases List.mem_append.mp hc with hc' | hc'
      · exact hchunks c hc'
      · rw [List.mem_singleton] at hc'
        subst hc'
        exact ⟨htrim.1, by omega⟩
    by_cases h2 : 0 < overlap ∧ overlap < (cur.length : Int)
    · rw [if_pos h2]
      by_cases h3 : 3 < (fields cur).length
      · rw [if_pos h3]
        refine ⟨hchunks', ?_⟩
        have hassoc : getOverlapText (fields cur) overlap ++ ' ' :: item =
            (getOverlapText (fields cur) overlap ++ [' ']) ++ item := by
          simp
        rw [hassoc]
        exact endsOk_append _ _ hitem.1 hitem.2
      · rw [if_neg h3]
        exact ⟨hchunks', hitem.2⟩
    · rw [if_neg h2]
      exact ⟨hchunks', hitem.2⟩
  · rw [if_neg h1]
    exact ⟨hchunks, endsOk_append _ _ hitem.1 hitem.2⟩

theorem combineStep_spec (maxSize overlap : Int)
    (hms : 0 < maxSize) (hov : 0 ≤ overlap) (holt : overlap < maxSize)
    (st : List Str × Str) (item : Str)
    (hitem : item ≠ [] ∧ endsOk item = true)
    (hchunks : ∀ c ∈ st.1, c ≠ [] ∧ (c.length : Int) ≤ maxSize + maxSize.tdiv 4)
    (hcur : endsOk st.2 = true)
    (hcurB : (st.2.length : Int) ≤ maxSize + maxSize.tdiv 4) :
    ∃ st', combineStep maxSize overlap st item = some st' ∧
      (∀ c ∈ st'.1, c ≠ [] ∧ (c.length : Int) ≤ maxSize + maxSize.tdiv 4) ∧
      endsOk st'.2 = true ∧
      (st'.2.length : Int) ≤ maxSize + maxSize.tdiv 4 := by
  have hd4 := tdiv4_facts maxSize hms.le
  obtain ⟨hA, hB⟩ :=
    combineClose_spec maxSize overlap st item hitem hchunks hcur hcurB
  unfold combineStep
  by_cases hbig : maxSize < ((combineClose maxSize overlap st item).2.length : Int)
  · rw [if_pos hbig]
    obtain ⟨fcs, hfcs, hfall, hflast, hfiff⟩ :=
      chunkByFixedSize_spec (combineClose maxSize overlap st item).2 maxSize overlap
        hms hov holt
    rw [hfcs]
    refine ⟨_, rfl, ?_, ?_, ?_⟩
    · intro c hc
      rcases List.mem_append.mp hc with hc' | hc'
      · exact hA c hc'
      · by_cases hlen : 1 < fcs.length
        · rw [if_pos hlen] at hc'
          exact hfall c (List.dropLast_subset fcs hc')
        · rw [if_neg hlen] at hc'
          exact absurd hc' (List.not_mem_nil c)
    · by_cases hfe : fcs = []
      · subst hfe
        rfl
      · have hcur1ne : (combineClose maxSize overlap st item).2 ≠ [] := by
          intro hh
          rw [hh] at hbig
          simp only [List.length_nil, Nat.cast_zero] at hbig
          omega
        have htr := trimSpace_spec (combineClose maxSize overlap st item).2 hcur1ne hB
        unfold endsOk
        rw [hflast, htr.2]
        unfold endsOk at hB
        exact hB
    · by_cases hfe : fcs = []
      · subst hfe
        have hz : (([] : List Str).getLastD []).length = 0 := rfl
        rw [hz]
        omega
      · exact (hfall _ (getLastD_mem fcs hfe)).2
  · rw [if_neg hbig]
    exact ⟨_, rfl, hA, hB, by omega⟩

theorem combineLoop_spec (maxSize overlap : Int)
    (hms : 0 < maxSize) (hov : 0 ≤ overlap) (holt : overlap < maxSize) :
    ∀ (items : List Str) (st : List Str × Str),
      (∀ it ∈ items, it ≠ [] ∧ endsOk it = true) →
      (∀ c ∈ st.1, c ≠ [] ∧ (c.length : Int) ≤ maxSize + maxSize.tdiv 4) →
      endsOk st.2 = true →
      (st.2.length : Int) ≤ maxSize + maxSize.tdiv 4 →
      ∃ st', combineLoop maxSize overlap items st = some st' ∧
        (∀ c ∈ st'.1, c ≠ [] ∧ (c.length : Int) ≤ maxSize + maxSize.tdiv 4) ∧
        endsOk st'.2 = true ∧
        (st'.2.length : Int) ≤ maxSize + maxSize.tdiv 4 := by
  intro items
  induction items with
  | nil =>
    intro st _ h1 h2 h3
    exact ⟨st, rfl, h1, h2, h3⟩
  | cons item rest ih =>
    intro st hit h1 h2 h3
    obtain ⟨st1, hst1, hA, hB, hC⟩ :=
      combineStep_spec maxSize overlap hms hov holt st item
        (hit item (List.mem_cons_self _ _)) h1 h2 h3
    simp only [combineLoop]
    rw [hst1]
    exact ih st1 (fun it h => hit it (List.mem_cons_of_mem _ h)) hA hB hC

theorem combineItemsIntoChunks_spec (maxSize overlap : Int)
    (hms : 0 < maxSize) (hov : 0 ≤ overlap) (holt : overlap < maxSize)
    (items : List Str) (hitems : ∀ it ∈ items, it ≠ [] ∧ endsOk it = true) :
    ∃ cs, combineItemsIntoChunks items maxSize overlap = some cs ∧
      ∀ c ∈ cs, c ≠ [] ∧ (c.length : Int) ≤ maxSize + maxSize.tdiv 4 := by
  have hd4 := tdiv4_facts maxSize hms.le
  obtain ⟨st', hst', hA, _, hC⟩ :=
    combineLoop_spec maxSize overlap hms hov holt items ([], []) hitems
      (by simp) rfl (by simp; omega)
  unfold combineItemsIntoChunks
  rw [hst']
  show ∃ cs,
      some (if trimSpace st'.2 ≠ [] then st'.1 ++ [trimSpace st'.2] else st'.1) =
        some cs ∧ ∀ c ∈ cs, c ≠ [] ∧ (c.length : Int) ≤ maxSize + maxSize.tdiv 4
  by_cases ht : trimSpace st'.2 ≠ []
  · rw [if_pos ht]
    refine ⟨_, rfl, ?_⟩
    intro c hc
    rcases List.mem_append.mp hc with hc' | hc'
    · exact hA c hc'
    · rw [List.mem_singleton] at hc'
      subst hc'
      have := trimSpace_length_le st'.2
      exact ⟨ht, by omega⟩
  · rw [if_neg ht]
    exact ⟨_, rfl, hA⟩

theorem chunkByParagraph_wf (text : Str) (maxSize overlap : Int)
    (hms : 0 < maxSize) (hov : 0 ≤ overlap) (holt : overlap < maxSize) :
    ∃ cs, chunkByParagraph text maxSize overlap = some cs ∧
      (∀ c ∈ cs, c ≠ [] ∧ (c.length : Int) ≤ maxSize + maxSize.tdiv 4) ∧
      (text.all goIsSpace = true → cs = []) := by
  have hd4 := tdiv4_facts maxSize hms.le
  unfold chunkByParagraph
  by_cases hnil : cleanPieces (splitParas text) = []
  · rw [if_pos hnil]
    exact ⟨[], rfl, by simp, fun _ => rfl⟩
  · rw [if_neg hnil]
    have hsp : text.all goIsSpace = true → False := fun hsp =>
      hnil (cleanPieces_eq_nil _ (splitParas_all_space text hsp))
    by_cases hall : allParagraphsUnderMaxSize (cleanPieces (splitParas text)) maxSize = true
    · rw [if_pos hall]
      refine ⟨_, rfl, ?_, fun hsp' => (hsp hsp').elim⟩
      intro c hc
      unfold allParagraphsUnderMaxSize at hall
      rw [List.all_eq_true] at hall
      have hle : (c.length : Int) ≤ maxSize := by simpa using hall c hc
      exact ⟨(cleanPieces_mem _ c hc).1, by omega⟩
    · rw [if_neg hall]
      unfold chunkPreservingParagraphs
      obtain ⟨cs, hcs, hne⟩ :=
        combineItemsIntoChunks_spec maxSize overlap hms hov holt _
          (cleanPieces_mem _)
      exact ⟨cs, hcs, hne, fun hsp' => (hsp hsp').elim⟩

theorem chunkBySentence_wf (text : Str) (maxSize overlap : Int)
    (hms : 0 < maxSize) (hov : 0 ≤ overlap) (holt : overlap < maxSize) :
    ∃ cs, chunkBySentence text maxSize overlap = some cs ∧
      (∀ c ∈ cs, c ≠ [] ∧ (c.length : Int) ≤ maxSize + maxSize.tdiv 4) ∧
      (text.all goIsSpace = true → cs = []) := by
  unfold chunkBySentence
  by_cases hnil : cleanPieces (splitIntoSentences text) = []
  · rw [if_pos hnil]
    exact ⟨[], rfl, by simp, fun _ => rfl⟩
  · rw [if_neg hnil]
    have hsp : text.all goIsSpace = true → False := fun hsp =>
      hnil (cleanPieces_eq_nil _ (splitIntoSentences_all_space text hsp))
    obtain ⟨cs, hcs, hne⟩ :=
      combineItemsIntoChunks_spec maxSize overlap hms hov holt _
        (cleanPieces_mem _)
    exact ⟨cs, hcs, hne, fun hsp' => (hsp hsp').elim⟩

theorem chunkByFixedSize_wf (text : Str) (maxSize overlap : Int)
    (hms : 0 < maxSize) (hov : 0 ≤ overlap) (holt : overlap < maxSize) :
    ∃ cs, chunkByFixedSize text maxSize overlap = some cs ∧
      (∀ c ∈ cs, c ≠ [] ∧ (c.length : Int) ≤ maxSize + maxSize.tdiv 4) ∧
      (text.all goIsSpace = true → cs = []) := by
  obtain ⟨cs, hcs, hall, _, hiff⟩ :=
    chunkByFixedSize_spec text maxSize overlap hms hov holt
  exact ⟨cs, hcs, hall,
    fun hsp => hiff.mp ((trimSpace_eq_nil_iff text).mpr hsp)⟩

theorem ChunkText_wf (strategy : String) (text : Str) (maxSize overlap : Int)
    (hms : 0 < maxSize) (hov : 0 ≤ overlap) (holt : overlap < maxSize) :
    ∃ cs, ChunkText text ⟨strategy, maxSize, overlap⟩ = some cs ∧
      (∀ c ∈ cs, c ≠ [] ∧ (c.length : Int) ≤ maxSize + maxSize.tdiv 4) ∧
      (text.all goIsSpace = true → cs = []) := by
  unfold ChunkText
  by_cases h1 : strategy = "paragraph"
  · rw [if_pos h1]
    exact chunkByParagraph_wf text maxSize overlap hms hov holt
  · rw [if_neg h1]
    by_cases h2 : strategy = "sentence"
    · rw [if_pos h2]
      exact chunkBySentence_wf text maxSize overlap hms hov holt
    · rw [if_neg h2]
      by_cases h3 : strategy = "fixed_size"
      · rw [if_pos h3]
        exact chunkByFixedSize_wf text maxSize overlap hms hov holt
      · rw [if_neg h3]
        exact chunkByParagraph_wf text maxSize overlap hms hov holt

/-- Claim C4 amended: for every strategy string and options with positive
`maxSize` and `0 ≤ overlap < maxSize`, `ChunkText` succeeds, every returned
chunk is non-empty (positive length), and empty or whitespace-only input
produces zero chunks, for all three strategies (and the paragraph fallback).
A whitespace-only but non-empty chunk can however be emitted (see the
counterexample), so "non-empty after trimming" does not hold. -/
theorem c4_amended (strategy : String) (text : Str) (maxSize overlap : Int)
    (hms : 0 < maxSize) (hov : 0 ≤ overlap) (holt : overlap < maxSize) :
    ∃ cs, ChunkText text ⟨strategy, maxSize, overlap⟩ = some cs ∧
      (∀ c ∈ cs, c ≠ []) ∧ (text.all goIsSpace = true → cs = []) := by
  obtain ⟨cs, hcs, hall, hsp⟩ :=
    ChunkText_wf strategy text maxSize overlap hms hov holt
  exact ⟨cs, hcs, fun c hc => (hall c hc).1, hsp⟩

/-- Claim C4 amended witness: the well-formedness conclusion at a concrete
sentence-strategy input and at a whitespace-only input. -/
theorem c4_amended_witness :
    ((0 : Int) < 1000 ∧ (0 : Int) ≤ 0 ∧ (0 : Int) < 1000) ∧
    (∃ cs, ChunkText (str "Hi. Bye") ⟨"sentence", 1000, 0⟩ = some cs ∧
      (∀ c ∈ cs, c ≠ []) ∧ ((str "Hi. Bye").all goIsSpace = true → cs = [])) ∧
    (∃ cs, ChunkText (str "  ") ⟨"fixed_size", 1000, 0⟩ = some cs ∧
      (∀ c ∈ cs, c ≠ []) ∧ ((str "  ").all goIsSpace = true → cs = [])) :=
  ⟨⟨by norm_num, le_refl 0, by norm_num⟩,
   c4_amended "sentence" (str "Hi. Bye") 1000 0 (by norm_num) (le_refl 0)
     (by norm_num),
   c4_amended "fixed_size" (str "  ") 1000 0 (by norm_num) (le_refl 0)
     (by norm_num)⟩

/-- Claim C1 amended: for every input text, every strategy, and options
with positive `maxSize` and `0 ≤ overlap < maxSize`, every chunk string
returned by `ChunkText` has length at most `maxSize + maxSize/4` (Go
integer division); the fixed-size tail-merge step can exceed `maxSize`, but
never this bound, and the combine path of the paragraph and sentence
strategies satisfies the same bound. -/
theorem c1_amended (strategy : String) (text : Str) (maxSize overlap : Int)
    (hms : 0 < maxSize) (hov : 0 ≤ overlap) (holt : overlap < maxSize)
    (cs : List Str)
    (hcs : ChunkText text ⟨strategy, maxSize, overlap⟩ = some cs) :
    ∀ c ∈ cs, (c.length : Int) ≤ maxSize + maxSize.tdiv 4 := by
  obtain ⟨cs', hcs', hall, _⟩ :=
    ChunkText_wf strategy text maxSize overlap hms hov holt
  rw [hcs'] at hcs
  injection hcs with hcs
  subst hcs
  intro c hc
  exact (hall c hc).2

/-- Claim C1 amended witness: the bound at the tail-merge counterexample
input, where the merged chunk has length 10 = 8 + 8/4. -/
theorem c1_amended_witness :
    (0 : Int) < 8 ∧ (0 : Int) ≤ 0 ∧ (0 : Int) < 8 ∧
    ChunkText (str "abcdefghi") ⟨"fixed_size", 8, 0⟩ = some [str "abcdefgh i"] ∧
    ∀ c ∈ [str "abcdefgh i"], (c.length : Int) ≤ 8 + (8 : Int).tdiv 4 :=
  ⟨by norm_num, le_refl 0, by norm_num, by decide,
   c1_amended "fixed_size" (str "abcdefghi") 8 0 (by norm_num) (le_refl 0)
     (by norm_num) [str "abcdefgh i"] (by decide)⟩

end GoRag
